import Mathlib

/-!
# colorpipe: ring buffer of colours and the line-to-colour mapping

A shallow embedding of `colorpipe.c`.

* C `int` values are `Int`. For a capacity that fits an `int`, every `int`
  operation of the embedded code stays inside the `int` range on the states
  reached from `ring_init` (indices lie in `[-1, size]`, the byte accumulator
  in `(-384, 511)`, the line length is at most 511), so no wrap is applied.
* C `%` and `/` on `int` truncate toward zero: `Int.tmod` and `Int.tdiv`.
  A zero divisor is undefined behaviour and is modelled by `none`.
* `unsigned char` values are `Nat`; the conversion `int → unsigned char`
  is an explicit `% 256`.
* A `char` read from the line is a raw byte `Fin 256`; whether `char` is
  signed is implementation-defined and is a parameter `char_signed`.
* Memory blocks are lists; a read or write outside the block is `none`.
* Loops are recursive functions over a fuel count that test the loop
  condition of the source on every iteration; the callers pass the exact
  trip count, and the theorems show that the result is `some`.
-/

namespace Colorpipe

/-! ## Constants -/

/-- Width of a column in pixels: `COLUMN_WIDTH`. -/
def COLUMN_WIDTH : Int := 10

/-- Width of the window in pixels: `SCREEN_WIDTH`. -/
def SCREEN_WIDTH : Int := 640

/-- Number of columns, the capacity of the ring: `NUM_COLUMNS`. -/
def NUM_COLUMNS : Int := SCREEN_WIDTH.tdiv COLUMN_WIDTH

/-! ## Data model -/

/-- A colour: `rgb_t`, three `unsigned char` channels. -/
structure rgb_t where
  red : Nat
  green : Nat
  blue : Nat
deriving DecidableEq, Repr

/-- A ring buffer: `ring_t`. The field `buffer` is the memory block the
pointer `buffer` points to. -/
structure ring_t where
  head : Int
  size : Int
  tail : Int
  full : Int
  buffer : List rgb_t
deriving DecidableEq, Repr

/-- The colour `{0, 0, 0}`. -/
def black : rgb_t := ⟨0, 0, 0⟩

/-! ## C primitives -/

/-- C `a % b` on `int`: truncating remainder, undefined for `b = 0`. -/
def c_mod (a b : Int) : Option Int :=
  if b = 0 then none else some (a.tmod b)

/-- Read `buffer[i]`; out of bounds is undefined. -/
def load {α : Type} (buffer : List α) (i : Int) : Option α :=
  if 0 ≤ i then buffer[i.toNat]? else none

/-- Write `buffer[i] = v`; out of bounds is undefined. -/
def store {α : Type} (buffer : List α) (i : Int) (v : α) : Option (List α) :=
  if 0 ≤ i ∧ i < buffer.length then some (buffer.set i.toNat v) else none

/-- The `int` value of a `char` holding the raw byte `c`. -/
def char_to_int (char_signed : Bool) (c : Fin 256) : Int :=
  if char_signed && decide (128 ≤ c.val) then (c.val : Int) - 256 else (c.val : Int)

/-- Conversion of an `int` to `unsigned char`: reduction modulo 256. -/
def to_uchar (x : Int) : Nat := (x % 256).toNat

/-! ## The ring buffer -/

/-- The loop of `ring_init`: `for (i = 0; i < handle->size; i = i + 1)`
storing the zero colour at slot `i`. -/
def ring_init_loop : Nat → ring_t → Int → Option ring_t
  | 0, handle, i => if i < handle.size then none else some handle
  | fuel + 1, handle, i =>
    if i < handle.size then
      match store handle.buffer i ⟨0, 0, 0⟩ with
      | none => none
      | some buffer =>
        ring_init_loop fuel ⟨handle.head, handle.size, handle.tail, handle.full, buffer⟩ (i + 1)
    else some handle

/-- The function `ring_init`, with the constant `NUM_COLUMNS` as the parameter
`num_columns`. The argument `buffer` is the freshly allocated block, whose
content is arbitrary. -/
def ring_init (num_columns : Int) (buffer : List rgb_t) : Option ring_t :=
  ring_init_loop num_columns.toNat ⟨0, num_columns, 0, 0, buffer⟩ 0

/-- The function `advance_head`: move head forward, with wraparound. -/
def advance_head (handle : ring_t) : Option ring_t :=
  match (if handle.full = 1 then c_mod (handle.tail + 1) handle.size else some handle.tail) with
  | none => none
  | some tail =>
    match c_mod (handle.head + 1) handle.size with
    | none => none
    | some head =>
      some ⟨head, handle.size, tail, if head = tail then 1 else 0, handle.buffer⟩

/-- The function `ring_put`: place a value in the buffer and advance the head. -/
def ring_put (handle : ring_t) (data : rgb_t) : Option ring_t :=
  match store handle.buffer handle.head data with
  | none => none
  | some buffer =>
    advance_head ⟨handle.head, handle.size, handle.tail, handle.full, buffer⟩

/-- A sequence of `ring_put` calls, in order. -/
def ring_puts (handle : ring_t) : List rgb_t → Option ring_t
  | [] => some handle
  | data :: rest =>
    match ring_put handle data with
    | none => none
    | some next => ring_puts next rest

/-- The ring after `ring_init` on a freshly allocated block followed by the
given `ring_put` calls, in order. -/
def ring_after (num_columns : Int) (buffer : List rgb_t) (cs : List rgb_t) : Option ring_t :=
  match ring_init num_columns buffer with
  | none => none
  | some r => ring_puts r cs

/-! ## The draw loop of `main` -/

/-- The variables of the draw loop: the ring behind `ring_handle`, the
index `i`, the counter `count`, and the columns painted so far, each as the
slot index read and the colour passed to the renderer, column 0 first. -/
structure draw_state where
  ring : ring_t
  i : Int
  count : Int
  columns : List (Int × rgb_t)
deriving DecidableEq, Repr

/-- The index update at the end of the loop body:
`i = (i - 1) % size; if (i < 0) i = size + i;`. -/
def draw_step (size i : Int) : Option Int :=
  match c_mod (i - 1) size with
  | none => none
  | some j => if j < 0 then some (size + j) else some j

/-- One iteration of the draw loop: read `buffer[i]`, paint it, step `i`
backward, increment `count`. -/
def draw_body (s : draw_state) : Option draw_state :=
  match load s.ring.buffer s.i with
  | none => none
  | some column_color =>
    match draw_step s.ring.size s.i with
    | none => none
    | some j => some ⟨s.ring, j, s.count + 1, s.columns ++ [(s.i, column_color)]⟩

/-- The loop `for (count = 0; count < NUM_COLUMNS; count = count + 1)`. -/
def draw_loop (num_columns : Int) : Nat → draw_state → Option draw_state
  | 0, s => if s.count < num_columns then none else some s
  | fuel + 1, s =>
    if s.count < num_columns then
      match draw_body s with
      | none => none
      | some next => draw_loop num_columns fuel next
    else some s

/-- The draw loop of `main` from its entry: `i = ring_handle->head`,
`count = 0`. -/
def draw (num_columns : Int) (ring : ring_t) : Option draw_state :=
  draw_loop num_columns num_columns.toNat ⟨ring, ring.head, 0, []⟩

/-- The colours the draw loop reads, column 0 first. -/
def draw_colors (num_columns : Int) (ring : ring_t) : Option (List rgb_t) :=
  (draw num_columns ring).map (fun s => s.columns.map Prod.snd)

/-- The slot indices the draw loop reads, column 0 first. -/
def draw_indices (num_columns : Int) (ring : ring_t) : Option (List Int) :=
  (draw num_columns ring).map (fun s => s.columns.map Prod.fst)

/-! ## The line-to-colour mapping -/

/-- The loop of `sum_bytes`: `for (i = start; i < end; i = i + 1)` with
`sum = sum + line[i]; sum = sum % 256;`. -/
def sum_bytes_loop (char_signed : Bool) (line : List (Fin 256)) (end_ : Int) :
    Nat → Int → Int → Option Int
  | 0, i, sum => if i < end_ then none else some sum
  | fuel + 1, i, sum =>
    if i < end_ then
      match load line i with
      | none => none
      | some c =>
        sum_bytes_loop char_signed line end_ fuel (i + 1)
          ((sum + char_to_int char_signed c).tmod 256)
    else some sum

/-- The function `sum_bytes`; the returned `int` is converted to
`unsigned char`. -/
def sum_bytes (char_signed : Bool) (line : List (Fin 256)) (start end_ : Int) : Option Nat :=
  (sum_bytes_loop char_signed line end_ (end_ - start).toNat start 0).map to_uchar

/-- The call `strcspn(line, reject)` on the bytes `fgets` stored before the
terminating NUL: the length of the longest initial segment with no byte of
`reject`; a NUL byte inside the line ends the string as well. -/
def strcspn (line reject : List (Fin 256)) : Nat :=
  (line.takeWhile (fun c => decide (c ≠ 0) && !(reject.contains c))).length

/-- The colour computed from a line length in `main`:
`one_third`, `two_thirds` and the three `sum_bytes` calls. -/
def compute_rgb (char_signed : Bool) (line : List (Fin 256)) (line_length : Int) :
    Option rgb_t :=
  let one_third := line_length.tdiv 3
  let two_thirds := (line_length.tdiv 3) * 2
  match sum_bytes char_signed line 0 one_third with
  | none => none
  | some red =>
    match sum_bytes char_signed line one_third two_thirds with
    | none => none
    | some green =>
      match sum_bytes char_signed line two_thirds line_length with
      | none => none
      | some blue => some ⟨red, green, blue⟩

/-- The colour `main` computes for a line: `line_length = strcspn(line, "\n")`
followed by the three sums. -/
def line_color (char_signed : Bool) (line : List (Fin 256)) : Option rgb_t :=
  compute_rgb char_signed line (strcspn line [10])

/-- One iteration of the main loop after `fgets` succeeded: compute the
colour, put it in the ring, draw. Returns the ring and the colours drawn. -/
def main_iteration (char_signed : Bool) (num_columns : Int) (ring : ring_t)
    (line : List (Fin 256)) : Option (ring_t × List rgb_t) :=
  match line_color char_signed line with
  | none => none
  | some color =>
    match ring_put ring color with
    | none => none
    | some next =>
      match draw_colors num_columns next with
      | none => none
      | some columns => some (next, columns)

/-- The main loop over the lines `fgets` delivers: returns the ring and the
frame drawn for the last line (no frame before the first line). -/
def main_lines (char_signed : Bool) (num_columns : Int) :
    ring_t → List rgb_t → List (List (Fin 256)) → Option (ring_t × List rgb_t)
  | ring, frame, [] => some (ring, frame)
  | ring, _, line :: rest =>
    match main_iteration char_signed num_columns ring line with
    | none => none
    | some (next, frame) => main_lines char_signed num_columns next frame rest

/-- The program from the allocation of the ring on: `ring_init` on the
freshly allocated block of `NUM_COLUMNS` slots, then the main loop over the
lines read. Returns the ring and the last frame drawn. -/
def main_run (char_signed : Bool) (buffer : List rgb_t) (lines : List (List (Fin 256))) :
    Option (ring_t × List rgb_t) :=
  match ring_init NUM_COLUMNS buffer with
  | none => none
  | some ring => main_lines char_signed NUM_COLUMNS ring [] lines

/-! ## Specification helpers -/

/-- The slots of a block that starts at slot `off`: each content paired with
its slot index. -/
def slots (off : Nat) (block : List rgb_t) : List (Int × rgb_t) :=
  (block.enumFrom off).map (fun p => ((p.1 : Int), p.2))

/-- The bytes of `line` at the indices `[start, end_)`. -/
def segment (line : List (Fin 256)) (start end_ : Nat) : List (Fin 256) :=
  (line.drop start).take (end_ - start)

/-- The sum of the byte values, each in `0..255`, of a sequence of bytes. -/
def byte_sum (seg : List (Fin 256)) : Nat :=
  (seg.map (fun c => c.val)).sum

/-- The length of a line up to the first newline, in the words of the
specification: the number of bytes before the first byte 10, or the number
of bytes of the line when it holds no byte 10. A NUL byte counts as content. -/
def length_to_newline (line : List (Fin 256)) : Nat :=
  (line.takeWhile (fun c => decide (c ≠ 10))).length

/-- The colour the specification assigns to a line for a line length `L`:
the byte sums modulo 256 of the segments `[0, L/3)`, `[L/3, 2*(L/3))` and
`[2*(L/3), L)`. -/
def spec_color (line : List (Fin 256)) (L : Nat) : rgb_t :=
  ⟨byte_sum (segment line 0 (L / 3)) % 256,
    byte_sum (segment line (L / 3) (2 * (L / 3))) % 256,
    byte_sum (segment line (2 * (L / 3)) L) % 256⟩

/-! ## Lemmas on the C primitives -/

theorem c_mod_of_lt {a n : Int} (h0 : 0 ≤ a) (h1 : a < n) : c_mod a n = some a := by
  have hn : n ≠ 0 := by omega
  simp [c_mod, hn, Int.tmod_eq_of_lt h0 h1]

theorem c_mod_self {n : Int} (hn : n ≠ 0) : c_mod n n = some 0 := by
  simp [c_mod, hn]

theorem load_append {α : Type} (A B : List α) (b : α) :
    load (A ++ b :: B) (A.length : Int) = some b := by
  have h : (A ++ b :: B)[A.length]? = some b := by
    rw [List.getElem?_append_right (le_refl _)]
    simp
  simpa [load] using h

theorem store_append {α : Type} (A B : List α) (b v : α) :
    store (A ++ b :: B) (A.length : Int) v = some (A ++ v :: B) := by
  simp [store]

/-! ## `ring_init` -/

theorem ring_init_loop_spec (h n t f : Int) :
    ∀ (Y Z : List rgb_t), n = (Z.length : Int) + (Y.length : Int) →
      ring_init_loop Y.length ⟨h, n, t, f, Z ++ Y⟩ (Z.length : Int)
        = some ⟨h, n, t, f, Z ++ List.replicate Y.length black⟩ := by
  intro Y
  induction Y with
  | nil =>
    intro Z hn
    simp [ring_init_loop, hn]
  | cons y Y ih =>
    intro Z hn
    have hlt : (Z.length : Int) < n := by
      simp only [List.length_cons, Nat.cast_add, Nat.cast_one] at hn
      omega
    have hn2 : n = ((Z ++ [black]).length : Int) + (Y.length : Int) := by
      simp only [List.length_cons, List.length_append, List.length_nil, Nat.cast_add,
        Nat.cast_one] at hn ⊢
      omega
    have h2 := ih (Z ++ [black]) hn2
    simp only [List.length_cons, ring_init_loop, hlt, if_true, store_append]
    have e1 : Z ++ ({ red := 0, green := 0, blue := 0 } : rgb_t) :: Y = (Z ++ [black]) ++ Y := by
      simp [black]
    have e2 : ((Z.length : Int) + 1) = ((Z ++ [black]).length : Int) := by simp
    rw [e1, e2, h2]
    simp [List.replicate_succ]

theorem ring_init_spec (N : Nat) (buffer : List rgb_t) (hlen : buffer.length = N) :
    ring_init (N : Int) buffer = some ⟨0, N, 0, 0, List.replicate N black⟩ := by
  have h := ring_init_loop_spec 0 (N : Int) 0 0 buffer [] (by simp [hlen])
  simpa [ring_init, hlen] using h

/-! ## `ring_put` -/

theorem mod_succ_lt {k N a : Nat} (ha : a = k % N) (h : a + 1 < N) : (k + 1) % N = a + 1 := by
  have h1 : 1 % N = 1 := Nat.mod_eq_of_lt (by omega)
  rw [Nat.add_mod, h1, ← ha, Nat.mod_eq_of_lt h]

theorem mod_succ_eq {k N a : Nat} (ha : a = k % N) (h : a + 1 = N) : (k + 1) % N = 0 := by
  by_cases h1 : N = 1
  · subst h1; exact Nat.mod_one _
  · have h2 : 1 % N = 1 := Nat.mod_eq_of_lt (by omega)
    rw [Nat.add_mod, h2, ← ha, h, Nat.mod_self]

theorem ring_puts_append (cs : List rgb_t) (c : rgb_t) :
    ∀ r : ring_t, ring_puts r (cs ++ [c]) = (ring_puts r cs).bind (fun x => ring_put x c) := by
  induction cs with
  | nil =>
    intro r
    simp only [List.nil_append, ring_puts, Option.some_bind]
    cases ring_put r c <;> rfl
  | cons d cs ih =>
    intro r
    simp only [List.cons_append, ring_puts]
    cases ring_put r d with
    | none => rfl
    | some x => exact ih x

/-- One `ring_put` on a ring whose head splits the buffer as `A ++ b :: B`
and whose next head and next tail are known. -/
theorem ring_put_split (A B : List rgb_t) (b c : rgb_t) (n t f h1 t1 : Int)
    (hh : c_mod ((A.length : Int) + 1) n = some h1)
    (ht : (if f = 1 then c_mod (t + 1) n else some t) = some t1) :
    ring_put ⟨A.length, n, t, f, A ++ b :: B⟩ c
      = some ⟨h1, n, t1, if h1 = t1 then 1 else 0, A ++ c :: B⟩ := by
  simp only [ring_put, store_append, advance_head, ht, hh]

/-- The state after any number of `ring_put` calls on a fresh ring of
capacity `N`: the head splits the buffer as `A ++ B` with `B` non-empty, and
`B ++ A` is the last `N` entries of `N` zero colours followed by the
appended colours, oldest first. -/
theorem ring_puts_spec (N : Nat) (hN : 1 ≤ N) (cs : List rgb_t) :
    ∃ A B : List rgb_t,
      ring_puts ⟨0, N, 0, 0, List.replicate N black⟩ cs
        = some ⟨A.length, N, if cs.length < N then 0 else A.length,
                if cs.length < N then 0 else 1, A ++ B⟩ ∧
      B ≠ [] ∧ A.length + B.length = N ∧
      B ++ A = (List.replicate N black ++ cs).drop cs.length ∧
      A.length = cs.length % N := by
  induction cs using List.reverseRecOn with
  | nil =>
    refine ⟨[], List.replicate N black, ?_, ?_, ?_, ?_, ?_⟩
    · have : 0 < N := hN
      simp [ring_puts, this]
    · intro h
      have := congrArg List.length h
      simp at this
      omega
    · simp
    · simp
    · simp
  | append_singleton cs c ih =>
    obtain ⟨A, B, hr, hB, hlen, hhist, hmod⟩ := ih
    cases B with
    | nil => exact absurd rfl hB
    | cons b B =>
      have hdrop : B ++ (A ++ [c])
          = (List.replicate N black ++ (cs ++ [c])).drop (cs ++ [c]).length := by
        have h1 : cs.length ≤ (List.replicate N black ++ cs).length := by simp
        have h2 : (cs ++ [c]).length = cs.length + 1 := by simp
        have h3 : List.replicate N black ++ (cs ++ [c])
            = (List.replicate N black ++ cs) ++ [c] := (List.append_assoc _ _ _).symm
        rw [h2, ← List.drop_drop, h3, List.drop_append_of_le_length h1, ← hhist]
        simp
      simp only [List.length_cons] at hlen
      rw [ring_puts_append, hr, Option.some_bind]
      by_cases hB2 : B = []
      · subst hB2
        simp only [List.length_nil] at hlen
        have hh : c_mod ((A.length : Int) + 1) N = some 0 := by
          have : (A.length : Int) + 1 = (N : Int) := by omega
          rw [this]
          exact c_mod_self (by omega)
        refine ⟨[], A ++ [c], ?_, by simp, by simp; omega, by simpa using hdrop, ?_⟩
        · by_cases hk : cs.length < N
          · have hk2 : ¬ (cs.length + 1 < N) := by
              have : A.length = cs.length := by rw [hmod, Nat.mod_eq_of_lt hk]
              omega
            rw [ring_put_split A [] b c N _ _ 0 0 hh (by simp [hk])]
            simp [hk2]
          · have hk2 : ¬ (cs.length + 1 < N) := by omega
            rw [ring_put_split A [] b c N _ _ 0 0 hh (by simp [hk, hh])]
            simp [hk2]
        · simp only [List.length_nil, List.length_append, List.length_singleton]
          exact (mod_succ_eq hmod (by omega)).symm
      · have hBlen : 0 < B.length := List.length_pos.mpr hB2
        have hlt : A.length + 1 < N := by omega
        have hh : c_mod ((A.length : Int) + 1) N = some ((A.length : Int) + 1) :=
          c_mod_of_lt (by omega) (by omega)
        have hmod2 : (cs.length + 1) % N = A.length + 1 := mod_succ_lt hmod hlt
        refine ⟨A ++ [c], B, ?_, hB2, by simp; omega, hdrop, by simp [hmod2]⟩
        by_cases hk : cs.length < N
        · have hk2 : cs.length + 1 < N := by
            have : A.length = cs.length := by rw [hmod, Nat.mod_eq_of_lt hk]
            omega
          rw [ring_put_split A B b c N _ _ ((A.length : Int) + 1) 0 hh (by simp [hk])]
          have hne : ¬ ((A.length : Int) + 1 = 0) := by omega
          simp [hk2, hne]
        · have hk2 : ¬ (cs.length + 1 < N) := by omega
          rw [ring_put_split A B b c N _ _ ((A.length : Int) + 1) ((A.length : Int) + 1) hh
            (by simp [hk, hh])]
          simp [hk2]

/-! ## The draw loop -/

theorem slots_append (off : Nat) (Y Z : List rgb_t) :
    slots off (Y ++ Z) = slots off Y ++ slots (off + Y.length) Z := by
  simp [slots, List.enumFrom_append]

theorem slots_singleton (off : Nat) (y : rgb_t) : slots off [y] = [((off : Int), y)] := by
  simp [slots]

theorem draw_step_spec {size i : Int} (h0 : 0 ≤ i) (h1 : i < size) :
    draw_step size i = some (if i = 0 then size - 1 else i - 1) := by
  by_cases hi : i = 0
  · subst hi
    have hs : size ≠ 0 := by omega
    by_cases h2 : size = 1
    · subst h2
      simp [draw_step, c_mod]
    · have h3 : (1 : Int).tmod size = 1 := Int.tmod_eq_of_lt (by omega) (by omega)
      have h4 : (-1 : Int).tmod size = -1 := by
        rw [Int.tmod_def, Int.neg_tdiv, Int.tdiv_eq_zero_of_lt (by omega) (by omega)]
        simp
      simp [draw_step, c_mod, hs, h4]
      omega
  · have h2 : c_mod (i - 1) size = some (i - 1) := c_mod_of_lt (by omega) (by omega)
    have h3 : ¬ (i - 1 < 0) := by omega
    simp [draw_step, h2, h3, hi]

/-- Running the draw loop over a block `Y` of the buffer `X ++ Y ++ Z`, from
the last slot of `Y` downward: `Y.length` iterations paint `Y` in reverse and
leave `i` at the slot before `Y`, wrapping to the last slot when `X` is
empty. -/
theorem draw_loop_block (num : Int) (r : ring_t) (Y : List rgb_t) :
    ∀ (X Z : List rgb_t) (i count : Int) (columns : List (Int × rgb_t)) (fuel : Nat),
      Y ≠ [] → r.buffer = X ++ Y ++ Z → r.size = ((X ++ Y ++ Z).length : Int) →
      i + 1 = (X.length : Int) + (Y.length : Int) → count + (Y.length : Int) ≤ num →
      draw_loop num (fuel + Y.length) ⟨r, i, count, columns⟩
        = draw_loop num fuel
            ⟨r, if X.length = 0 then r.size - 1 else (X.length : Int) - 1,
              count + (Y.length : Int), columns ++ (slots X.length Y).reverse⟩ := by
  induction Y using List.reverseRecOn with
  | nil => intro X Z i count columns fuel h; exact absurd rfl h
  | append_singleton Y y ih =>
    intro X Z i count columns fuel _ hbuf hsize hi hcount
    simp only [List.length_append, List.length_singleton, Nat.cast_add, Nat.cast_one] at hi hcount
    have hlt : count < num := by omega
    have hi2 : i = ((X ++ Y).length : Int) := by
      simp only [List.length_append, Nat.cast_add]; omega
    have hbuf2 : r.buffer = (X ++ Y) ++ y :: Z := by rw [hbuf]; simp
    have hload : load r.buffer i = some y := by rw [hbuf2, hi2]; exact load_append _ _ _
    have hsz : i < r.size := by
      rw [hsize]
      simp only [List.length_append, List.length_singleton, Nat.cast_add, Nat.cast_one]
      omega
    have hstep := @draw_step_spec r.size i (by omega) hsz
    have hfuel : fuel + (Y ++ [y]).length = (fuel + Y.length) + 1 := by simp; omega
    rw [hfuel]
    simp only [draw_loop, hlt, if_true, draw_body, hload, hstep]
    by_cases hY : Y = []
    · subst hY
      simp only [List.length_nil, Nat.cast_zero, add_zero] at hi ⊢
      have hi3 : i = (X.length : Int) := by omega
      have e : (i = 0) = (X.length = 0) := by
        rw [hi3]; simp
      simp only [e, List.nil_append, slots_singleton, List.reverse_singleton,
        List.length_singleton, Nat.cast_one]
      rw [hi3]
    · have hYpos : 0 < Y.length := List.length_pos.mpr hY
      have hne : ¬ (i = 0) := by omega
      simp only [hne, if_false]
      rw [ih X (y :: Z) (i - 1) (count + 1) (columns ++ [(i, y)]) fuel hY
        (by rw [hbuf]; simp) (by rw [hsize]; simp) (by omega) (by omega)]
      have e1 : count + 1 + (Y.length : Int) = count + ((Y.length : Int) + 1) := by omega
      have e2 : i = ((X.length + Y.length : Nat) : Int) := by push_cast; omega
      simp only [slots_append, slots_singleton, List.reverse_append, List.reverse_singleton,
        List.length_append, List.length_singleton, Nat.cast_add, Nat.cast_one, e1,
        List.append_assoc, List.singleton_append]
      rw [e2]
      simp

/-- The draw loop on a ring whose head splits the buffer as `A ++ b :: B`:
it terminates, leaves the ring as it was, and paints slot `head` first, then
the slots before it downward, then the slots after it from the last one
downward. -/
theorem draw_split (A B : List rgb_t) (b : rgb_t) (n t f : Int)
    (hn : n = (A.length : Int) + 1 + (B.length : Int)) :
    draw n ⟨A.length, n, t, f, A ++ b :: B⟩
      = some ⟨⟨A.length, n, t, f, A ++ b :: B⟩, A.length, n,
          (slots 0 (A ++ [b])).reverse ++ (slots (A.length + 1) B).reverse⟩ := by
  have hfuel : n.toNat = B.length + (A ++ [b]).length := by
    simp only [List.length_append, List.length_singleton]; omega
  have hlen : ((A ++ b :: B).length : Int) = n := by
    simp only [List.length_append, List.length_cons, Nat.cast_add, Nat.cast_one]; omega
  unfold draw
  rw [hfuel]
  rw [draw_loop_block n _ (A ++ [b]) [] B A.length 0 [] B.length (by simp) (by simp)
    (by simp only [List.nil_append, List.append_assoc, List.singleton_append]; exact hlen.symm)
    (by simp) (by simp; omega)]
  simp only [List.length_nil, if_true, List.nil_append, zero_add, List.length_append,
    List.length_singleton, Nat.cast_add, Nat.cast_one]
  by_cases hB : B = []
  · subst hB
    simp only [List.length_nil, Nat.cast_zero, add_zero] at hn
    have hc : ¬ ((A.length : Int) + 1 < n) := by omega
    simp only [List.length_nil, draw_loop, hc, if_false, slots, List.enumFrom_nil, List.map_nil,
      List.reverse_nil, List.append_nil]
    have e : n - 1 = (A.length : Int) := by omega
    rw [e, hn]
  · have h0 : B.length = 0 + B.length := by omega
    rw [h0]
    rw [draw_loop_block n _ B (A ++ [b]) [] (n - 1) ((A.length : Int) + 1) _ 0 hB (by simp)
      (by simp only [List.append_nil, List.append_assoc, List.singleton_append]; exact hlen.symm)
      (by simp; omega) (by omega)]
    have hc : ¬ ((A.length : Int) + 1 + (B.length : Int) < n) := by omega
    have hne : ¬ (A.length + 1 = 0) := by omega
    simp only [draw_loop, hc, if_false, hne, List.length_append, List.length_singleton,
      Nat.cast_add, Nat.cast_one, zero_add]
    have e : (A.length : Int) + 1 - 1 = (A.length : Int) := by omega
    rw [e, hn]

theorem slots_snd (off : Nat) (Y : List rgb_t) : (slots off Y).map Prod.snd = Y := by
  induction Y generalizing off with
  | nil => rfl
  | cons y Y ih =>
    have := ih (off + 1)
    simp [slots] at this ⊢
    exact this

theorem slots_fst (off : Nat) (Y : List rgb_t) :
    (slots off Y).map Prod.fst = (List.range' off Y.length).map (fun j : Nat => (j : Int)) := by
  induction Y generalizing off with
  | nil => rfl
  | cons y Y ih =>
    have := ih (off + 1)
    simp [slots, List.range'] at this ⊢
    exact this

/-- The colours drawn on a ring split at its head as `A ++ b :: B`. -/
theorem draw_colors_split (A B : List rgb_t) (b : rgb_t) (n t f : Int)
    (hn : n = (A.length : Int) + 1 + (B.length : Int)) :
    draw_colors n ⟨A.length, n, t, f, A ++ b :: B⟩ = some (b :: (A.reverse ++ B.reverse)) := by
  simp [draw_colors, draw_split A B b n t f hn, List.map_reverse, slots_snd]

/-! ## Rings reachable from `ring_init` -/

theorem ring_puts_concat (cs ds : List rgb_t) :
    ∀ r : ring_t, ring_puts r (cs ++ ds) = (ring_puts r cs).bind (fun x => ring_puts x ds) := by
  induction cs with
  | nil => intro r; simp [ring_puts]
  | cons d cs ih =>
    intro r
    simp only [List.cons_append, ring_puts]
    cases ring_put r d with
    | none => rfl
    | some x => exact ih x

theorem ring_after_eq (N : Nat) (buffer : List rgb_t) (hlen : buffer.length = N)
    (cs : List rgb_t) :
    ring_after (N : Int) buffer cs = ring_puts ⟨0, N, 0, 0, List.replicate N black⟩ cs := by
  simp [ring_after, ring_init_spec N buffer hlen]

/-- While fewer than `N` colours were appended, they sit at the front of the
buffer in order and the remaining slots are still zero. -/
theorem ring_after_filling (N : Nat) (buffer : List rgb_t) (hlen : buffer.length = N)
    (cs : List rgb_t) (hk : cs.length < N) :
    ring_after (N : Int) buffer cs
      = some ⟨cs.length, N, 0, 0, cs ++ List.replicate (N - cs.length) black⟩ := by
  obtain ⟨A, B, hr, _, hAB, hhist, hmod⟩ := ring_puts_spec N (by omega) cs
  rw [Nat.mod_eq_of_lt hk] at hmod
  have h1 : cs.length ≤ (List.replicate N black).length := by simp; omega
  rw [List.drop_append_of_le_length h1, List.drop_replicate] at hhist
  obtain ⟨hB, hA⟩ := List.append_inj' hhist hmod
  rw [ring_after_eq N buffer hlen, hr, hA, hB]
  simp [hk]

/-- Once `N` or more colours were appended, the ring is full, tail equals
head, and the buffer read from the head onward, wrapping, is the last `N`
appended colours, oldest first. -/
theorem ring_after_full (N : Nat) (hN : 1 ≤ N) (buffer : List rgb_t)
    (hlen : buffer.length = N) (cs : List rgb_t) (hk : N ≤ cs.length) :
    ∃ (A B : List rgb_t) (b : rgb_t),
      ring_after (N : Int) buffer cs = some ⟨A.length, N, A.length, 1, A ++ b :: B⟩ ∧
      A.length + 1 + B.length = N ∧
      b :: B ++ A = cs.drop (cs.length - N) ∧
      A.length = cs.length % N := by
  obtain ⟨A, B, hr, hB, hAB, hhist, hmod⟩ := ring_puts_spec N hN cs
  cases B with
  | nil => exact absurd rfl hB
  | cons b B =>
    refine ⟨A, B, b, ?_, by simp at hAB; omega, ?_, hmod⟩
    · have hk2 : ¬ cs.length < N := by omega
      rw [ring_after_eq N buffer hlen, hr]
      simp [hk2]
    · have h1 : cs.length = (List.replicate N black).length + (cs.length - N) := by
        simp; omega
      rw [hhist]
      conv_lhs => rw [h1]
      rw [List.drop_append]

/-- The colours drawn while the ring is filling: the still-zero slot at the
head first, then the appended colours newest first, then the other zero
slots. -/
theorem draw_colors_filling (N : Nat) (buffer : List rgb_t) (hlen : buffer.length = N)
    (cs : List rgb_t) (hk : cs.length < N) :
    ∃ r, ring_after (N : Int) buffer cs = some r ∧
      draw_colors (N : Int) r
        = some (black :: (cs.reverse ++ List.replicate (N - cs.length - 1) black)) := by
  refine ⟨_, ring_after_filling N buffer hlen cs hk, ?_⟩
  have h1 : N - cs.length = (N - cs.length - 1) + 1 := by omega
  rw [h1, List.replicate_succ]
  rw [draw_colors_split cs _ black N 0 0 (by simp; omega)]
  simp

/-- The colours drawn once the ring is full: the oldest retained colour
first, then the other `N - 1` retained colours newest first. -/
theorem draw_colors_full (N : Nat) (hN : 1 ≤ N) (buffer : List rgb_t)
    (hlen : buffer.length = N) (cs : List rgb_t) (hk : N ≤ cs.length) :
    ∃ r o rest, ring_after (N : Int) buffer cs = some r ∧
      cs.drop (cs.length - N) = o :: rest ∧
      draw_colors (N : Int) r = some (o :: rest.reverse) := by
  obtain ⟨A, B, b, hr, hAB, hhist, _⟩ := ring_after_full N hN buffer hlen cs hk
  refine ⟨_, b, B ++ A, hr, by rw [← hhist]; simp, ?_⟩
  rw [draw_colors_split A B b N _ _ (by omega)]
  simp

/-! ## `sum_bytes` -/

theorem tmod_256_emod (x : Int) : (x.tmod 256) % 256 = x % 256 := by
  have h := Int.tmod_def x 256
  omega

theorem char_to_int_emod (char_signed : Bool) (c : Fin 256) :
    (char_to_int char_signed c) % 256 = (c.val : Int) := by
  have hc := c.isLt
  unfold char_to_int
  split <;> omega

/-- The loop of `sum_bytes` over the block `Y` of the line `X ++ Y ++ Z`
returns an accumulator congruent modulo 256 to the entry accumulator plus the
byte values of `Y`. -/
theorem sum_bytes_loop_spec (char_signed : Bool) (Y : List (Fin 256)) :
    ∀ (X Z : List (Fin 256)) (sum : Int),
      ∃ out : Int,
        sum_bytes_loop char_signed (X ++ Y ++ Z) ((X.length : Int) + (Y.length : Int))
          Y.length (X.length : Int) sum = some out ∧
        out % 256 = (sum + (byte_sum Y : Int)) % 256 := by
  induction Y with
  | nil =>
    intro X Z sum
    exact ⟨sum, by simp [sum_bytes_loop], by simp [byte_sum]⟩
  | cons y Y ih =>
    intro X Z sum
    obtain ⟨out, h1, h2⟩ := ih (X ++ [y]) Z ((sum + char_to_int char_signed y).tmod 256)
    refine ⟨out, ?_, ?_⟩
    · have hlt : (X.length : Int) < (X.length : Int) + ((y :: Y).length : Int) := by
        simp only [List.length_cons, Nat.cast_add, Nat.cast_one]; omega
      have hload : load (X ++ y :: Y ++ Z) (X.length : Int) = some y := by
        have := load_append X (Y ++ Z) y
        simpa using this
      simp only [List.length_cons, sum_bytes_loop]
      simp only [List.length_cons] at hlt
      simp only [hlt, if_true, hload]
      have e1 : X ++ y :: Y ++ Z = X ++ [y] ++ Y ++ Z := by simp
      have e2 : (X.length : Int) + ((Y.length + 1 : Nat) : Int)
          = ((X ++ [y]).length : Int) + (Y.length : Int) := by
        simp only [List.length_append, List.length_singleton, Nat.cast_add, Nat.cast_one]; omega
      have e3 : (X.length : Int) + 1 = ((X ++ [y]).length : Int) := by simp
      rw [e1, e2, e3]
      exact h1
    · have h3 := tmod_256_emod (sum + char_to_int char_signed y)
      have h4 := char_to_int_emod char_signed y
      have h5 : (byte_sum (y :: Y) : Int) = (y.val : Int) + (byte_sum Y : Int) := by
        simp [byte_sum]
      rw [h2, h5]
      omega

theorem segment_split (line : List (Fin 256)) (start end_ : Nat) (h1 : start ≤ end_)
    (h2 : end_ ≤ line.length) :
    line = line.take start ++ segment line start end_ ++ line.drop end_ ∧
      (line.take start).length = start ∧ (segment line start end_).length = end_ - start := by
  refine ⟨?_, by simp; omega, by simp [segment]; omega⟩
  have h3 : line.drop end_ = (line.drop start).drop (end_ - start) := by
    rw [List.drop_drop]; congr 1; omega
  rw [List.append_assoc, segment, h3, List.take_append_drop, List.take_append_drop]

/-- The value `sum_bytes` returns on a range inside the line: the sum of the
byte values of the range, modulo 256. -/
theorem sum_bytes_spec (char_signed : Bool) (line : List (Fin 256)) (start end_ : Nat)
    (h1 : start ≤ end_) (h2 : end_ ≤ line.length) :
    sum_bytes char_signed line (start : Int) (end_ : Int)
      = some (byte_sum (segment line start end_) % 256) := by
  obtain ⟨hl, hX, hY⟩ := segment_split line start end_ h1 h2
  obtain ⟨out, h3, h4⟩ := sum_bytes_loop_spec char_signed (segment line start end_)
    (line.take start) (line.drop end_) 0
  rw [← hl, hX, hY] at h3
  have e1 : ((end_ : Int) - (start : Int)).toNat = end_ - start := by omega
  have e2 : (end_ : Int) = (start : Int) + ((end_ - start : Nat) : Int) := by omega
  unfold sum_bytes
  rw [e1]
  conv_lhs => rw [e2]
  rw [h3]
  simp only [Option.map_some', to_uchar, Option.some.injEq]
  rw [h4]
  omega

/-! ## Claims on the ring buffer -/

theorem ring_split (r : ring_t) (N : Nat) (hlen : r.buffer.length = N) (h0 : 0 ≤ r.head)
    (h1 : r.head < N) :
    ∃ (A B : List rgb_t) (b : rgb_t),
      r.buffer = A ++ b :: B ∧ r.head = (A.length : Int) ∧ A.length + 1 + B.length = N := by
  have hlt : r.head.toNat < r.buffer.length := by omega
  refine ⟨r.buffer.take r.head.toNat, r.buffer.drop (r.head.toNat + 1),
    r.buffer[r.head.toNat], ?_, ?_, ?_⟩
  · rw [← List.drop_eq_getElem_cons hlt, List.take_append_drop]
  · simp only [List.length_take]; omega
  · simp only [List.length_take, List.length_drop]; omega

theorem slots_mem (L : List rgb_t) :
    ∀ (off : Nat) (p : Int × rgb_t), p ∈ slots off L →
      ∃ m : Nat, p.1 = ((off + m : Nat) : Int) ∧ L[m]? = some p.2 := by
  induction L with
  | nil => intro off p hp; simp [slots] at hp
  | cons y L ih =>
    intro off p hp
    have e : slots off (y :: L) = ((off : Int), y) :: slots (off + 1) L := by
      simp [slots]
    rw [e, List.mem_cons] at hp
    rcases hp with hp | hp
    · exact ⟨0, by simp [hp], by simp [hp]⟩
    · obtain ⟨m, h1, h2⟩ := ih (off + 1) p hp
      exact ⟨m + 1, by rw [h1]; congr 1; omega, by simpa using h2⟩

/-- C8: for every capacity `N ≥ 1`, `ring_init` on a freshly allocated block
of `N` slots yields head 0, tail 0, full 0, size `N` and `N` slots all equal
to the zero colour, and the draw loop run on that ring before any append
reads exactly `N` zero colours. -/
theorem C8_ring_init_all_zero (N : Nat) (hN : 1 ≤ N) (buffer : List rgb_t)
    (hlen : buffer.length = N) :
    ring_init (N : Int) buffer = some ⟨0, (N : Int), 0, 0, List.replicate N black⟩ ∧
      draw_colors (N : Int) ⟨0, (N : Int), 0, 0, List.replicate N black⟩
        = some (List.replicate N black) := by
  refine ⟨ring_init_spec N buffer hlen, ?_⟩
  obtain ⟨M, rfl⟩ : ∃ M, N = M + 1 := ⟨N - 1, by omega⟩
  have h := draw_colors_split [] (List.replicate M black) black ((M + 1 : Nat) : Int) 0 0
    (by simp; omega)
  simp only [List.length_nil, Nat.cast_zero, List.nil_append] at h
  rw [List.replicate_succ, h]
  simp

/-- C6: every state reached from `ring_init` with capacity `N ≥ 1` by any
sequence of `ring_put` calls exists and has size `N`, a buffer of `N` slots,
`0 ≤ head < N` and full equal to 0 or 1; when full is 0 the tail is 0 and
every slot at an index from head on holds the zero colour; when full is 1
the tail equals the head. -/
theorem C6_reachable_invariant (N : Nat) (hN : 1 ≤ N) (buffer : List rgb_t)
    (hlen : buffer.length = N) (cs : List rgb_t) :
    ∃ r, ring_after (N : Int) buffer cs = some r ∧
      r.size = (N : Int) ∧ r.buffer.length = N ∧ 0 ≤ r.head ∧ r.head < (N : Int) ∧
      (r.full = 0 ∨ r.full = 1) ∧
      (r.full = 0 → r.tail = 0 ∧
        ∀ j : Int, r.head ≤ j → j < (N : Int) → load r.buffer j = some black) ∧
      (r.full = 1 → r.tail = r.head) := by
  by_cases hk : cs.length < N
  · refine ⟨_, ring_after_filling N buffer hlen cs hk, rfl, by simp; omega, by simp,
      by simp; omega, Or.inl rfl, ?_, by intro h; simp at h⟩
    intro _
    refine ⟨rfl, ?_⟩
    intro j hj1 hj2
    simp only at hj1
    have hj0 : 0 ≤ j := by omega
    have hj3 : cs.length ≤ j.toNat := by omega
    simp only [load, hj0, if_true]
    rw [List.getElem?_append_right hj3, List.getElem?_replicate]
    have hj4 : j.toNat - cs.length < N - cs.length := by omega
    simp [hj4]
  · obtain ⟨A, B, b, hr, hAB, _, _⟩ := ring_after_full N hN buffer hlen cs (by omega)
    refine ⟨_, hr, rfl, by simp; omega, by simp, by simp; omega, Or.inr rfl,
      by intro h; simp at h, by intro _; rfl⟩

theorem ring_after_full_iff (N : Nat) (hN : 1 ≤ N) (buffer : List rgb_t)
    (hlen : buffer.length = N) (cs : List rgb_t) :
    ∃ r, ring_after (N : Int) buffer cs = some r ∧ (r.full = 1 ↔ N ≤ cs.length) := by
  by_cases hk : cs.length < N
  · refine ⟨_, ring_after_filling N buffer hlen cs hk, ?_⟩
    simp; omega
  · obtain ⟨A, B, b, hr, _, _, _⟩ := ring_after_full N hN buffer hlen cs (by omega)
    refine ⟨_, hr, ?_⟩
    simp; omega

/-- C7: for every capacity `N ≥ 1`, after `k` calls of `ring_put` on a fresh
ring the full flag is 1 exactly when `k ≥ N`; and once it is 1, every
further sequence of `ring_put` calls succeeds and leaves it 1. -/
theorem C7_full_iff_and_stays (N : Nat) (hN : 1 ≤ N) (buffer : List rgb_t)
    (hlen : buffer.length = N) (cs : List rgb_t) :
    ∃ r, ring_after (N : Int) buffer cs = some r ∧ (r.full = 1 ↔ N ≤ cs.length) ∧
      (r.full = 1 → ∀ ds : List rgb_t, ∃ r2, ring_puts r ds = some r2 ∧ r2.full = 1) := by
  obtain ⟨r, hr, hiff⟩ := ring_after_full_iff N hN buffer hlen cs
  refine ⟨r, hr, hiff, ?_⟩
  intro hfull ds
  obtain ⟨r2, hr2, hiff2⟩ := ring_after_full_iff N hN buffer hlen (cs ++ ds)
  refine ⟨r2, ?_, ?_⟩
  · rw [ring_after_eq N buffer hlen] at hr hr2
    rw [ring_puts_concat, hr] at hr2
    simpa using hr2
  · rw [hiff2]
    have := hiff.mp hfull
    simp; omega

/-- C5: for every capacity `N ≥ 1` and `N + 1` pairwise distinct colours
`c1, mid, cl` appended in order to a fresh ring, the ring after the first `N`
has tail 0, the last `ring_put` moves the tail to `1 mod N`, and the draw
loop then reads exactly `N` colours, none of them `c1`, and each of the `N`
later colours exactly once. -/
theorem C5_evicts_oldest (N : Nat) (buffer : List rgb_t) (hlen : buffer.length = N)
    (c1 cl : rgb_t) (mid : List rgb_t) (hN : mid.length + 1 = N)
    (hdist : (c1 :: (mid ++ [cl])).Nodup) :
    ∃ r0 r D, ring_after (N : Int) buffer (c1 :: mid) = some r0 ∧ r0.tail = 0 ∧
      ring_put r0 cl = some r ∧ r.tail = ((1 % N : Nat) : Int) ∧
      draw_colors (N : Int) r = some D ∧ D.length = N ∧ c1 ∉ D ∧
      ∀ x ∈ mid ++ [cl], D.count x = 1 := by
  have hN1 : 1 ≤ N := by omega
  obtain ⟨A0, B0, b0, hr0, _, _, hmod0⟩ :=
    ring_after_full N hN1 buffer hlen (c1 :: mid) (by simp; omega)
  obtain ⟨A, B, b, hr, hAB, hhist, hmod⟩ :=
    ring_after_full N hN1 buffer hlen (c1 :: (mid ++ [cl])) (by simp; omega)
  have hlen0 : (c1 :: mid).length = N := by simp; omega
  rw [hlen0, Nat.mod_self] at hmod0
  have hlen1 : (c1 :: (mid ++ [cl])).length = N + 1 := by simp; omega
  rw [hlen1] at hmod hhist
  have hdrop : List.drop (N + 1 - N) (c1 :: (mid ++ [cl])) = mid ++ [cl] := by
    have : N + 1 - N = 1 := by omega
    rw [this]; rfl
  rw [hdrop] at hhist
  have hput : ring_put ⟨A0.length, N, A0.length, 1, A0 ++ b0 :: B0⟩ cl
      = some ⟨A.length, N, A.length, 1, A ++ b :: B⟩ := by
    have h1 : ring_after (N : Int) buffer ((c1 :: mid) ++ [cl])
        = some ⟨A.length, N, A.length, 1, A ++ b :: B⟩ := by simpa using hr
    rw [ring_after_eq N buffer hlen, ring_puts_append, ← ring_after_eq N buffer hlen, hr0] at h1
    simpa using h1
  have hperm : (b :: (A.reverse ++ B.reverse)).Perm (mid ++ [cl]) := by
    rw [← hhist]
    have h1 : (A.reverse ++ B.reverse).Perm (B ++ A) :=
      ((List.reverse_perm A).append (List.reverse_perm B)).trans List.perm_append_comm
    simpa using h1
  refine ⟨_, _, _, hr0, by simp [hmod0], hput, ?_, draw_colors_split A B b N _ _ (by omega),
    ?_, ?_, ?_⟩
  · simp only
    rw [hmod, Nat.add_mod_left]
  · rw [hperm.length_eq]; simp; omega
  · intro h
    have h2 := hperm.subset h
    exact (List.nodup_cons.mp hdist).1 h2
  · intro x hx
    rw [hperm.count_eq]
    exact List.count_eq_one_of_mem (List.nodup_cons.mp hdist).2 hx

/-- C10: for every size `N ≥ 1` and index `0 ≤ i < N`, the backward step of
the draw loop (truncating remainder, then the correction of a negative
result) yields `(i - 1 + N) mod N`, which lies in `[0, N)`; and on every ring
of size `N` with `N` slots and `0 ≤ head < N` the draw loop terminates,
leaves the ring unchanged, starts at slot `head`, reads `N` slots, each in
bounds with the colour stored there, and visits every slot index exactly
once. -/
theorem C10_backward_walk (N : Nat) (hN : 1 ≤ N) :
    (∀ i : Int, 0 ≤ i → i < (N : Int) →
      draw_step (N : Int) i = some ((i - 1 + (N : Int)) % (N : Int)) ∧
      0 ≤ (i - 1 + (N : Int)) % (N : Int) ∧ (i - 1 + (N : Int)) % (N : Int) < (N : Int)) ∧
    (∀ r : ring_t, r.size = (N : Int) → r.buffer.length = N → 0 ≤ r.head →
      r.head < (N : Int) →
      ∃ s, draw (N : Int) r = some s ∧ s.ring = r ∧ s.columns.length = N ∧
        (s.columns.map Prod.fst).head? = some r.head ∧
        (∀ p ∈ s.columns, 0 ≤ p.1 ∧ p.1 < (N : Int) ∧ load r.buffer p.1 = some p.2) ∧
        (s.columns.map Prod.fst).Perm ((List.range N).map (fun j : Nat => (j : Int)))) := by
  constructor
  · intro i h0 h1
    have hpos : (0 : Int) < (N : Int) := by omega
    refine ⟨?_, Int.emod_nonneg _ (by omega), Int.emod_lt_of_pos _ hpos⟩
    rw [draw_step_spec h0 h1]
    by_cases hi : i = 0
    · subst hi
      simp only [if_true, zero_sub]
      have e : (-1 + (N : Int)) = (N : Int) - 1 := by omega
      rw [e, Int.emod_eq_of_lt (by omega) (by omega)]
    · simp only [hi, if_false]
      rw [Int.add_emod_self, Int.emod_eq_of_lt (by omega) (by omega)]
  · intro r hsize hlen h0 h1
    obtain ⟨A, B, b, hbuf, hhead, hAB⟩ := ring_split r N hlen h0 h1
    have hr : r = ⟨A.length, N, r.tail, r.full, A ++ b :: B⟩ := by
      cases r
      simp only at hbuf hhead hsize
      simp [hbuf, hhead, hsize]
    have hd := draw_split A B b (N : Int) r.tail r.full (by omega)
    rw [← hr] at hd
    refine ⟨_, hd, rfl, ?_, ?_, ?_, ?_⟩
    · simp [slots]; omega
    · simp [slots_append, slots_singleton, hhead]
    · intro p hp
      have hp2 : p ∈ slots 0 (A ++ b :: B) := by
        have e : A ++ b :: B = (A ++ [b]) ++ B := by simp
        rw [e, slots_append]
        simp only [List.mem_append, List.mem_reverse] at hp
        simp only [List.mem_append, zero_add, List.length_append, List.length_singleton]
        exact hp
      obtain ⟨m, h1, h2⟩ := slots_mem _ 0 p hp2
      have hm : m < (A ++ b :: B).length := by
        rcases Nat.lt_or_ge m (A ++ b :: B).length with h | h
        · exact h
        · rw [List.getElem?_eq_none h] at h2; cases h2
      have hm2 : m < N := by
        simp only [List.length_append, List.length_cons] at hm; omega
      refine ⟨by rw [h1]; omega, by rw [h1]; omega, ?_⟩
      have e : (0 : Int) ≤ p.1 := by rw [h1]; omega
      have e2 : p.1.toNat = m := by rw [h1]; omega
      rw [hbuf]
      simp only [load, e, if_true, e2]
      exact h2
    · simp only [List.map_append, List.map_reverse, slots_fst]
      have h3 : List.range N = List.range' 0 (A ++ [b]).length
          ++ List.range' (A.length + 1) B.length := by
        have e : A.length + 1 = 0 + (A ++ [b]).length := by simp
        rw [List.range_eq_range', e, List.range'_append_1]
        congr 1
        simp; omega
      rw [h3, List.map_append]
      exact (List.reverse_perm _).append (List.reverse_perm _)

/-! ## Claims on the line-to-colour mapping -/

theorem byte_sum_zero (seg : List (Fin 256)) (hz : ∀ c ∈ seg, c = 0) : byte_sum seg = 0 := by
  induction seg with
  | nil => rfl
  | cons y seg ih =>
    have h1 : y = 0 := hz y (List.mem_cons_self _ _)
    have h2 := ih (fun c hc => hz c (List.mem_cons_of_mem _ hc))
    simp only [byte_sum, List.map_cons, List.sum_cons] at h2 ⊢
    rw [h2, h1]
    rfl

theorem segment_subset (line : List (Fin 256)) (start end_ : Nat) :
    ∀ c ∈ segment line start end_, c ∈ line := by
  intro c hc
  exact List.mem_of_mem_drop (List.mem_of_mem_take hc)

theorem strcspn_le (line reject : List (Fin 256)) : strcspn line reject ≤ line.length := by
  unfold strcspn
  exact (List.takeWhile_sublist _).length_le

theorem take_length_takeWhile {α : Type} (p : α → Bool) (l : List α) :
    l.take (l.takeWhile p).length = l.takeWhile p := by
  induction l with
  | nil => rfl
  | cons a l ih =>
    by_cases h : p a
    · simp [List.takeWhile_cons_of_pos h, ih]
    · simp [List.takeWhile_cons_of_neg h]

theorem segment_append (line : List (Fin 256)) (a b c : Nat) (h1 : a ≤ b) (h2 : b ≤ c) :
    segment line a b ++ segment line b c = segment line a c := by
  have e : c - a = (b - a) + (c - b) := by omega
  have e2 : a + (b - a) = b := by omega
  simp only [segment]
  rw [e, List.take_add, List.drop_drop, e2]

/-- The colour computed from a line length `L` inside the line: the three
channel values are the byte sums, modulo 256, of the ranges `[0, L/3)`,
`[L/3, 2*(L/3))` and `[2*(L/3), L)`. -/
theorem compute_rgb_spec (char_signed : Bool) (line : List (Fin 256)) (L : Nat)
    (hL : L ≤ line.length) :
    compute_rgb char_signed line (L : Int)
      = some ⟨byte_sum (segment line 0 (L / 3)) % 256,
          byte_sum (segment line (L / 3) (2 * (L / 3))) % 256,
          byte_sum (segment line (2 * (L / 3)) L) % 256⟩ := by
  have e1 : (L : Int).tdiv 3 = ((L / 3 : Nat) : Int) := by
    rw [Int.tdiv_eq_ediv (by omega) (by omega)]; omega
  have e2 : ((L / 3 : Nat) : Int) * 2 = ((2 * (L / 3) : Nat) : Int) := by
    push_cast; omega
  have h1 := sum_bytes_spec char_signed line 0 (L / 3) (by omega) (by omega)
  have h2 := sum_bytes_spec char_signed line (L / 3) (2 * (L / 3)) (by omega) (by omega)
  have h3 := sum_bytes_spec char_signed line (2 * (L / 3)) L (by omega) hL
  simp only [Nat.cast_zero] at h1
  simp only [compute_rgb, e1, e2, h1, h2, h3]

theorem takeWhile_stop {α : Type} (p : α → Bool) (l : List α) :
    (l.takeWhile p).length < l.length →
      ∃ x, l[(l.takeWhile p).length]? = some x ∧ p x = false := by
  induction l with
  | nil => intro h; simp at h
  | cons a l ih =>
    intro h
    by_cases ha : p a
    · rw [List.takeWhile_cons_of_pos ha] at h ⊢
      simp only [List.length_cons] at h ⊢
      obtain ⟨x, h1, h2⟩ := ih (by omega)
      exact ⟨x, by simpa using h1, h2⟩
    · rw [List.takeWhile_cons_of_neg ha]
      exact ⟨a, by simp, by simpa using ha⟩

theorem takeWhile_length_mono {α : Type} (p q : α → Bool) (hpq : ∀ x, p x = true → q x = true)
    (l : List α) : (l.takeWhile p).length ≤ (l.takeWhile q).length := by
  induction l with
  | nil => simp
  | cons a l ih =>
    by_cases ha : p a
    · rw [List.takeWhile_cons_of_pos ha, List.takeWhile_cons_of_pos (hpq a ha)]
      simp only [List.length_cons]
      omega
    · rw [List.takeWhile_cons_of_neg ha]
      simp

theorem takeWhile_congr_on {α : Type} (p q : α → Bool) (hpq : ∀ x, p x = true → q x = true)
    (l : List α) (hall : ∀ x ∈ l.takeWhile q, p x = true) :
    l.takeWhile p = l.takeWhile q := by
  induction l with
  | nil => simp
  | cons a l ih =>
    by_cases hq : q a
    · rw [List.takeWhile_cons_of_pos hq] at hall ⊢
      have hp : p a = true := hall a (List.mem_cons_self _ _)
      rw [List.takeWhile_cons_of_pos hp, ih (fun x hx => hall x (List.mem_cons_of_mem _ hx))]
    · have hp : ¬ (p a = true) := fun h => hq (hpq a h)
      rw [List.takeWhile_cons_of_neg hq, List.takeWhile_cons_of_neg hp]

theorem strcspn_newline_pred (c : Fin 256) :
    (decide (c ≠ 0) && !(([10] : List (Fin 256)).contains c)) = true ↔ c ≠ 0 ∧ c ≠ 10 := by
  simp

/-- C3 (as amended): for every line, the line length `L` used in `main` is
`strcspn(line, "\n")`, the number of bytes before the first newline or NUL
byte: `L` is at most the length of the line, none of the first `L` bytes is a
newline or a NUL, the byte at index `L`, when there is one, is a newline or
a NUL, `L` is at most the length up to the first newline and equals it when
no NUL byte comes before the first newline. For that `L` the colour computed
in `main` has red, green and blue equal to `sum_bytes` over `[0, b1)`,
`[b1, b2)` and `[b2, L)` with `b1 = L / 3` and `b2 = 2 * (L / 3)`, each the
byte sum of its segment modulo 256; the three segments in order make up the
first `L` bytes and have sizes `L / 3`, `L / 3` and `L - 2 * (L / 3)`; a line
of seven bytes before the newline has segment sizes 2, 2, 3. -/
theorem C3_segments_up_to_newline_or_nul (char_signed : Bool) (line : List (Fin 256)) :
    strcspn line [10] ≤ line.length ∧
    (∀ c ∈ line.take (strcspn line [10]), c ≠ 10 ∧ c ≠ 0) ∧
    (strcspn line [10] < line.length →
      load line ((strcspn line [10] : Nat) : Int) = some 10 ∨
        load line ((strcspn line [10] : Nat) : Int) = some 0) ∧
    strcspn line [10] ≤ length_to_newline line ∧
    ((∀ c ∈ line.take (length_to_newline line), c ≠ 0) →
      strcspn line [10] = length_to_newline line) ∧
    (∃ red green blue : Nat,
      sum_bytes char_signed line 0 ((strcspn line [10] / 3 : Nat) : Int) = some red ∧
      sum_bytes char_signed line ((strcspn line [10] / 3 : Nat) : Int)
        ((2 * (strcspn line [10] / 3) : Nat) : Int) = some green ∧
      sum_bytes char_signed line ((2 * (strcspn line [10] / 3) : Nat) : Int)
        ((strcspn line [10] : Nat) : Int) = some blue ∧
      line_color char_signed line = some ⟨red, green, blue⟩ ∧
      (⟨red, green, blue⟩ : rgb_t) = spec_color line (strcspn line [10])) ∧
    segment line 0 (strcspn line [10] / 3)
      ++ segment line (strcspn line [10] / 3) (2 * (strcspn line [10] / 3))
      ++ segment line (2 * (strcspn line [10] / 3)) (strcspn line [10])
      = line.take (strcspn line [10]) ∧
    (segment line 0 (strcspn line [10] / 3)).length = strcspn line [10] / 3 ∧
    (segment line (strcspn line [10] / 3) (2 * (strcspn line [10] / 3))).length
      = strcspn line [10] / 3 ∧
    (segment line (2 * (strcspn line [10] / 3)) (strcspn line [10])).length
      = strcspn line [10] - 2 * (strcspn line [10] / 3) ∧
    strcspn [97, 98, 99, 100, 101, 102, 103, 10] [10] = 7 ∧
    line_color char_signed [97, 98, 99, 100, 101, 102, 103, 10]
      = some ⟨(97 + 98) % 256, (99 + 100) % 256, (101 + 102 + 103) % 256⟩ := by
  have hL := strcspn_le line [10]
  have hstop := takeWhile_stop
    (fun c => decide (c ≠ 0) && !(([10] : List (Fin 256)).contains c)) line
  have hmono := takeWhile_length_mono
    (fun c => decide (c ≠ 0) && !(([10] : List (Fin 256)).contains c))
    (fun c => decide (c ≠ 10)) (fun x hx => by simp at hx ⊢; exact hx.2) line
  have hcongr := takeWhile_congr_on
    (fun c => decide (c ≠ 0) && !(([10] : List (Fin 256)).contains c))
    (fun c => decide (c ≠ 10)) (fun x hx => by simp at hx ⊢; exact hx.2) line
  have htake : line.take (strcspn line [10]) = line.takeWhile
      (fun c => decide (c ≠ 0) && !(([10] : List (Fin 256)).contains c)) := by
    rw [strcspn]
    exact take_length_takeWhile _ _
  have htake2 : line.take (length_to_newline line) = line.takeWhile
      (fun c => decide (c ≠ 10)) := by
    rw [length_to_newline]
    exact take_length_takeWhile _ _
  have hlen2 : length_to_newline line
      = (line.takeWhile (fun c => decide (c ≠ 10))).length := rfl
  have hlen1 : strcspn line [10] = (line.takeWhile
      (fun c => decide (c ≠ 0) && !(([10] : List (Fin 256)).contains c))).length := rfl
  rw [htake2]
  rw [← hlen1] at hstop hmono
  rw [← hlen2] at hmono
  generalize hLdef : strcspn line [10] = L at hL htake hstop hmono hlen1 ⊢
  have hs1 := segment_split line 0 (L / 3) (by omega) (by omega)
  have hs2 := segment_split line (L / 3) (2 * (L / 3)) (by omega) (by omega)
  have hs3 := segment_split line (2 * (L / 3)) L (by omega) hL
  refine ⟨hL, ?_, ?_, hmono, ?_, ?_, ?_, by rw [hs1.2.2]; omega, by rw [hs2.2.2]; omega,
    hs3.2.2, by decide, ?_⟩
  · intro c hc
    rw [htake] at hc
    have h1 := List.mem_takeWhile_imp hc
    have h2 := (strcspn_newline_pred c).mp h1
    exact ⟨h2.2, h2.1⟩
  · intro hlt
    obtain ⟨x, hx1, hx2⟩ := hstop hlt
    have hload : load line ((L : Nat) : Int) = some x := by
      simp only [load, Nat.cast_nonneg, if_true, Int.toNat_ofNat]
      exact hx1
    rw [hload]
    have h3 : ¬ (x ≠ 0 ∧ x ≠ 10) := by
      intro h
      have := (strcspn_newline_pred x).mpr h
      rw [hx2] at this
      cases this
    by_cases h0 : x = 0
    · exact Or.inr (by rw [h0])
    · by_cases h10 : x = 10
      · exact Or.inl (by rw [h10])
      · exact absurd ⟨h0, h10⟩ h3
  · intro hnul
    have h4 := hcongr (fun x hx => by
      have h5 := hnul x hx
      have h6 := List.mem_takeWhile_imp hx
      simp at h6
      exact (strcspn_newline_pred x).mpr ⟨h5, h6⟩)
    rw [hlen1, hlen2, h4]
  · refine ⟨_, _, _, ?_, ?_, ?_, ?_, rfl⟩
    · have := sum_bytes_spec char_signed line 0 (L / 3) (by omega) (by omega)
      simpa using this
    · exact sum_bytes_spec char_signed line (L / 3) (2 * (L / 3)) (by omega) (by omega)
    · exact sum_bytes_spec char_signed line (2 * (L / 3)) L (by omega) hL
    · rw [line_color, hLdef]
      exact compute_rgb_spec char_signed line L hL
  · rw [List.append_assoc, segment_append line (L / 3) (2 * (L / 3)) L (by omega) (by omega),
      segment_append line 0 (L / 3) L (by omega) (by omega)]
    simp [segment]
  · cases char_signed <;> decide

/-- C3 (counterexample to the claim as first stated): on the line
`'a','b',NUL,'c','d','\n'` the length up to the first newline is 5, for
which the three sums are (97, 98, 199), but `main` takes `strcspn`, which
stops at the NUL byte, so its line length is 2 and its colour is
(0, 0, 195), for either signedness of `char`. -/
theorem C3_counterexample_embedded_nul :
    length_to_newline [97, 98, 0, 99, 100, 10] = 5 ∧
    spec_color [97, 98, 0, 99, 100, 10] 5 = ⟨97, 98, 199⟩ ∧
    compute_rgb true [97, 98, 0, 99, 100, 10] 5 = some ⟨97, 98, 199⟩ ∧
    strcspn [97, 98, 0, 99, 100, 10] [10] = 2 ∧
    line_color true [97, 98, 0, 99, 100, 10] = some ⟨0, 0, 195⟩ ∧
    line_color false [97, 98, 0, 99, 100, 10] = some ⟨0, 0, 195⟩ ∧
    ¬ (∀ (char_signed : Bool) (line : List (Fin 256)),
        line_color char_signed line
          = some (spec_color line (length_to_newline line))) := by
  refine ⟨by decide, by decide, by decide, by decide, by decide, by decide, ?_⟩
  intro h
  have h1 := h true [97, 98, 0, 99, 100, 10]
  revert h1
  decide

/-- C4: for either signedness of `char`, every line and every range
`start ≤ end_` inside it, `sum_bytes` returns the sum of the byte values
(each in `0..255`) of the range modulo 256, and so returns the same value on
any line whose bytes in that range are a permutation of these. -/
theorem C4_sum_bytes_mod_256 (char_signed : Bool) (line : List (Fin 256)) (start end_ : Nat)
    (h1 : start ≤ end_) (h2 : end_ ≤ line.length) :
    sum_bytes char_signed line (start : Int) (end_ : Int)
      = some (byte_sum (segment line start end_) % 256) ∧
    ∀ line2 : List (Fin 256), end_ ≤ line2.length →
      (segment line2 start end_).Perm (segment line start end_) →
      sum_bytes char_signed line2 (start : Int) (end_ : Int)
        = sum_bytes char_signed line (start : Int) (end_ : Int) := by
  refine ⟨sum_bytes_spec char_signed line start end_ h1 h2, ?_⟩
  intro line2 h3 hperm
  rw [sum_bytes_spec char_signed line start end_ h1 h2,
    sum_bytes_spec char_signed line2 start end_ h1 h3]
  have : byte_sum (segment line2 start end_) = byte_sum (segment line start end_) := by
    unfold byte_sum
    exact (hperm.map _).sum_eq
  rw [this]

/-- C9: for either signedness of `char` and every line whose bytes are all
0, the colour `main` computes is black, and so is the colour computed from
any line length up to the length of the line; the empty line gives black;
and `sum_bytes` over an empty range of any line is 0. -/
theorem C9_zero_line_is_black (char_signed : Bool) (line : List (Fin 256))
    (hz : ∀ c ∈ line, c = 0) :
    line_color char_signed line = some black ∧
    (∀ L : Nat, L ≤ line.length → compute_rgb char_signed line (L : Int) = some black) ∧
    line_color char_signed [] = some black ∧
    (∀ (other : List (Fin 256)) (start : Int),
      sum_bytes char_signed other start start = some 0) := by
  have hall : ∀ L : Nat, L ≤ line.length →
      compute_rgb char_signed line (L : Int) = some black := by
    intro L hL
    rw [compute_rgb_spec char_signed line L hL]
    have hseg : ∀ a b, byte_sum (segment line a b) = 0 := fun a b =>
      byte_sum_zero _ (fun c hc => hz c (segment_subset line a b c hc))
    simp [hseg, black]
  refine ⟨?_, hall, ?_, ?_⟩
  · exact hall _ (strcspn_le line [10])
  · cases char_signed <;> decide
  · intro other start
    simp [sum_bytes, sum_bytes_loop, to_uchar]

/-! ## Where the draw loop departs from newest-first order -/

/-- C1 (code departs from the claim): after exactly `N` appends to a fresh
ring the draw loop reads slot `head` first, which holds the oldest retained
colour, and only then the other colours newest first. With capacity 4 and
colours 1, 2, 3, 4 appended it reads 1, 4, 3, 2, not 4, 3, 2, 1; with the
capacity 64 of the program and colours 1 to 64 appended it reads 1 first,
then 64 down to 2; after `2 * 4` appends it reads 5, 8, 7, 6. -/
theorem C1_draw_reads_oldest_first :
    (ring_after 4 (List.replicate 4 black) [⟨1, 0, 0⟩, ⟨2, 0, 0⟩, ⟨3, 0, 0⟩, ⟨4, 0, 0⟩]).bind
        (draw_colors 4)
      = some [⟨1, 0, 0⟩, ⟨4, 0, 0⟩, ⟨3, 0, 0⟩, ⟨2, 0, 0⟩] ∧
    (ring_after 4 (List.replicate 4 black) [⟨1, 0, 0⟩, ⟨2, 0, 0⟩, ⟨3, 0, 0⟩, ⟨4, 0, 0⟩]).bind
        (draw_colors 4)
      ≠ some [⟨4, 0, 0⟩, ⟨3, 0, 0⟩, ⟨2, 0, 0⟩, ⟨1, 0, 0⟩] ∧
    (ring_after 4 (List.replicate 4 black)
        ((List.range 8).map (fun k => (⟨k + 1, 0, 0⟩ : rgb_t)))).bind (draw_colors 4)
      = some [⟨5, 0, 0⟩, ⟨8, 0, 0⟩, ⟨7, 0, 0⟩, ⟨6, 0, 0⟩] ∧
    (ring_after NUM_COLUMNS (List.replicate 64 black)
        ((List.range 64).map (fun k => (⟨k + 1, 0, 0⟩ : rgb_t)))).bind (draw_colors NUM_COLUMNS)
      = some (⟨1, 0, 0⟩ :: ((List.range 63).map (fun k => (⟨k + 2, 0, 0⟩ : rgb_t))).reverse) ∧
    (ring_after NUM_COLUMNS (List.replicate 64 black)
        ((List.range 64).map (fun k => (⟨k + 1, 0, 0⟩ : rgb_t)))).bind (draw_colors NUM_COLUMNS)
      ≠ some ((List.range 64).map (fun k => (⟨k + 1, 0, 0⟩ : rgb_t))).reverse := by
  refine ⟨by decide, by decide, by decide, by decide, by decide⟩

/-- C2 (code departs from the claim): with the capacity 64 of the program
and the lines "aaa", "bbb", "ccc" read in order, the frame drawn after the
third line starts with the still-zero slot at `head`, a black column,
followed by (99,99,99), (98,98,98), (97,97,97) and 60 black columns; its
first three entries are not the three colours newest first. -/
theorem C2_draw_starts_with_black :
    (main_run true (List.replicate 64 black)
        [[97, 97, 97, 10], [98, 98, 98, 10], [99, 99, 99, 10]]).map Prod.snd
      = some (black :: ⟨99, 99, 99⟩ :: ⟨98, 98, 98⟩ :: ⟨97, 97, 97⟩ :: List.replicate 60 black) ∧
    (main_run false (List.replicate 64 black)
        [[97, 97, 97, 10], [98, 98, 98, 10], [99, 99, 99, 10]]).map Prod.snd
      = some (black :: ⟨99, 99, 99⟩ :: ⟨98, 98, 98⟩ :: ⟨97, 97, 97⟩ :: List.replicate 60 black) ∧
    (main_run true (List.replicate 64 black)
        [[97, 97, 97, 10], [98, 98, 98, 10], [99, 99, 99, 10]]).map Prod.snd
      ≠ some (⟨99, 99, 99⟩ :: ⟨98, 98, 98⟩ :: ⟨97, 97, 97⟩ :: List.replicate 61 black) := by
  refine ⟨by decide, by decide, by decide⟩

/-! ## Instances at concrete inputs -/

/-- Instance of C3: the line "abcdefg" with its newline holds no NUL byte,
so the line length of `main` is the length up to the first newline, 7. -/
theorem C3_segments_up_to_newline_or_nul_witness :
    (∀ c ∈ ([97, 98, 99, 100, 101, 102, 103, 10] : List (Fin 256)).take
        (length_to_newline [97, 98, 99, 100, 101, 102, 103, 10]), c ≠ 0) ∧
    strcspn [97, 98, 99, 100, 101, 102, 103, 10] [10]
      = length_to_newline [97, 98, 99, 100, 101, 102, 103, 10] :=
  ⟨by simp [length_to_newline],
    (C3_segments_up_to_newline_or_nul true [97, 98, 99, 100, 101, 102, 103, 10]).2.2.2.2.1
      (by simp [length_to_newline])⟩

/-- Instance of C4: signed `char`, the range `[1, 3)` of the bytes 200, 100,
250, 7, which holds the byte 250, added as the negative value -6. -/
theorem C4_sum_bytes_mod_256_witness :
    (1 ≤ 3 ∧ 3 ≤ ([200, 100, 250, 7] : List (Fin 256)).length) ∧
    (sum_bytes true [200, 100, 250, 7] ((1 : Nat) : Int) ((3 : Nat) : Int)
        = some (byte_sum (segment [200, 100, 250, 7] 1 3) % 256) ∧
      ∀ line2 : List (Fin 256), 3 ≤ line2.length →
        (segment line2 1 3).Perm (segment [200, 100, 250, 7] 1 3) →
        sum_bytes true line2 ((1 : Nat) : Int) ((3 : Nat) : Int)
          = sum_bytes true [200, 100, 250, 7] ((1 : Nat) : Int) ((3 : Nat) : Int)) :=
  ⟨⟨by decide, by decide⟩,
    C4_sum_bytes_mod_256 true [200, 100, 250, 7] 1 3 (by decide) (by decide)⟩

/-- Instance of C5: capacity 3 and the four colours 1, 2, 3, 4. -/
theorem C5_evicts_oldest_witness :
    ((List.replicate 3 black).length = 3 ∧ ([⟨2, 0, 0⟩, ⟨3, 0, 0⟩] : List rgb_t).length + 1 = 3 ∧
      ((⟨1, 0, 0⟩ : rgb_t) :: ([⟨2, 0, 0⟩, ⟨3, 0, 0⟩] ++ [⟨4, 0, 0⟩])).Nodup) ∧
    ∃ r0 r D,
      ring_after ((3 : Nat) : Int) (List.replicate 3 black) (⟨1, 0, 0⟩ :: [⟨2, 0, 0⟩, ⟨3, 0, 0⟩])
        = some r0 ∧ r0.tail = 0 ∧
      ring_put r0 ⟨4, 0, 0⟩ = some r ∧ r.tail = ((1 % 3 : Nat) : Int) ∧
      draw_colors ((3 : Nat) : Int) r = some D ∧ D.length = 3 ∧ (⟨1, 0, 0⟩ : rgb_t) ∉ D ∧
      ∀ x ∈ ([⟨2, 0, 0⟩, ⟨3, 0, 0⟩] : List rgb_t) ++ [⟨4, 0, 0⟩], D.count x = 1 :=
  ⟨⟨by decide, by decide, by decide⟩,
    C5_evicts_oldest 3 (List.replicate 3 black) (by decide) ⟨1, 0, 0⟩ ⟨4, 0, 0⟩
      [⟨2, 0, 0⟩, ⟨3, 0, 0⟩] (by decide) (by decide)⟩

/-- Instance of C6: capacity 4, a block with arbitrary content, two appends. -/
theorem C6_reachable_invariant_witness :
    (1 ≤ 4 ∧ (List.replicate 4 (⟨7, 7, 7⟩ : rgb_t)).length = 4) ∧
    ∃ r, ring_after ((4 : Nat) : Int) (List.replicate 4 ⟨7, 7, 7⟩) [⟨1, 0, 0⟩, ⟨2, 0, 0⟩] = some r ∧
      r.size = ((4 : Nat) : Int) ∧ r.buffer.length = 4 ∧ 0 ≤ r.head ∧ r.head < ((4 : Nat) : Int) ∧
      (r.full = 0 ∨ r.full = 1) ∧
      (r.full = 0 → r.tail = 0 ∧
        ∀ j : Int, r.head ≤ j → j < ((4 : Nat) : Int) → load r.buffer j = some black) ∧
      (r.full = 1 → r.tail = r.head) :=
  ⟨⟨by decide, by decide⟩,
    C6_reachable_invariant 4 (by decide) (List.replicate 4 ⟨7, 7, 7⟩) (by decide)
      [⟨1, 0, 0⟩, ⟨2, 0, 0⟩]⟩

/-- Instance of C7: capacity 2 and three appends. -/
theorem C7_full_iff_and_stays_witness :
    (1 ≤ 2 ∧ (List.replicate 2 (⟨7, 7, 7⟩ : rgb_t)).length = 2) ∧
    ∃ r, ring_after ((2 : Nat) : Int) (List.replicate 2 ⟨7, 7, 7⟩)
        [⟨1, 0, 0⟩, ⟨2, 0, 0⟩, ⟨3, 0, 0⟩] = some r ∧
      (r.full = 1 ↔ 2 ≤ ([⟨1, 0, 0⟩, ⟨2, 0, 0⟩, ⟨3, 0, 0⟩] : List rgb_t).length) ∧
      (r.full = 1 → ∀ ds : List rgb_t, ∃ r2, ring_puts r ds = some r2 ∧ r2.full = 1) :=
  ⟨⟨by decide, by decide⟩,
    C7_full_iff_and_stays 2 (by decide) (List.replicate 2 ⟨7, 7, 7⟩) (by decide)
      [⟨1, 0, 0⟩, ⟨2, 0, 0⟩, ⟨3, 0, 0⟩]⟩

/-- Instance of C8: capacity 4 and a block with arbitrary content. -/
theorem C8_ring_init_all_zero_witness :
    (1 ≤ 4 ∧ (List.replicate 4 (⟨7, 7, 7⟩ : rgb_t)).length = 4) ∧
    (ring_init ((4 : Nat) : Int) (List.replicate 4 ⟨7, 7, 7⟩)
        = some ⟨0, ((4 : Nat) : Int), 0, 0, List.replicate 4 black⟩ ∧
      draw_colors ((4 : Nat) : Int) ⟨0, ((4 : Nat) : Int), 0, 0, List.replicate 4 black⟩
        = some (List.replicate 4 black)) :=
  ⟨⟨by decide, by decide⟩,
    C8_ring_init_all_zero 4 (by decide) (List.replicate 4 ⟨7, 7, 7⟩) (by decide)⟩

/-- Instance of C9: signed `char` and a line of five zero bytes. -/
theorem C9_zero_line_is_black_witness :
    (∀ c ∈ ([0, 0, 0, 0, 0] : List (Fin 256)), c = 0) ∧
    (line_color true [0, 0, 0, 0, 0] = some black ∧
      (∀ L : Nat, L ≤ ([0, 0, 0, 0, 0] : List (Fin 256)).length →
        compute_rgb true [0, 0, 0, 0, 0] (L : Int) = some black) ∧
      line_color true [] = some black ∧
      (∀ (other : List (Fin 256)) (start : Int), sum_bytes true other start start = some 0)) :=
  ⟨by simp, C9_zero_line_is_black true [0, 0, 0, 0, 0] (by simp)⟩

/-- Instance of C10: size 4. -/
theorem C10_backward_walk_witness :
    1 ≤ 4 ∧
    ((∀ i : Int, 0 ≤ i → i < ((4 : Nat) : Int) →
      draw_step ((4 : Nat) : Int) i = some ((i - 1 + ((4 : Nat) : Int)) % ((4 : Nat) : Int)) ∧
      0 ≤ (i - 1 + ((4 : Nat) : Int)) % ((4 : Nat) : Int) ∧
      (i - 1 + ((4 : Nat) : Int)) % ((4 : Nat) : Int) < ((4 : Nat) : Int)) ∧
    (∀ r : ring_t, r.size = ((4 : Nat) : Int) → r.buffer.length = 4 → 0 ≤ r.head →
      r.head < ((4 : Nat) : Int) →
      ∃ s, draw ((4 : Nat) : Int) r = some s ∧ s.ring = r ∧ s.columns.length = 4 ∧
        (s.columns.map Prod.fst).head? = some r.head ∧
        (∀ p ∈ s.columns, 0 ≤ p.1 ∧ p.1 < ((4 : Nat) : Int) ∧ load r.buffer p.1 = some p.2) ∧
        (s.columns.map Prod.fst).Perm ((List.range 4).map (fun j : Nat => (j : Int))))) :=
  ⟨by decide, C10_backward_walk 4 (by decide)⟩

end Colorpipe
